import Mathlib

/-
Verification of the fast_hdr histogramming tool (src/main.rs) against its
natural-language specification.

The Rust source is shallowly embedded below.  Machine integers (u64, i64)
are modelled as Nat and Int together with explicit reduction modulo 2^64
where the source performs an `as` cast; file contents are passed as decoded
CSV data (a header row plus data rows, each a list of field strings), so the
I/O layer (file opening, gzip decompression, CSV record splitting) is out of
scope, exactly as the spec declares it an external collaborator.  The two
reader constructors of the source (`new_uncompressed_reader` and
`new_compressed_reader`) have identical header/column-lookup logic and are
embedded once as `new_reader` over the decoded header.

The hdrhistogram crate is an external component; its operations are
modelled from the spec: section 4.3 gives its exact contract (`create`
fails when `sigfigs` exceeds the supported precision or `max_value` is
degenerate; `record v` requires `0 <= v <= max_value` and fails recoverably
otherwise; `saturating_record` clamps into range and never fails).  The
histogram state is abstracted as the list of values recorded into it.

A Rust panic (the `unwrap` of a missing join key in `JoinRHS::take`) is
modelled as the distinguished error value `Error.panicked`, so that
`take` remains a total function; `panicked` aborts a run like any other
error, mirroring process abort.
-/

deriving instance DecidableEq for Except

namespace FastHdr

/-- The out-of-bounds disposition for a difference value (source: `enum OOBRule`). -/
inductive OOBRule : Type
  | Error : OOBRule
  | Drop : OOBRule
  | Saturate : OOBRule
deriving DecidableEq

/-- Run-aborting errors (source: `enum Error`), plus `panicked`, which models
a Rust panic (the `unwrap` in `JoinRHS::take`); both abort the run with no
output. -/
inductive Error : Type
  | ioError : Error
  | histError : Error
  | csvError : Error
  | userError : String → Error
  | parseIntError : Error
  | panicked : Error
deriving DecidableEq

/-- One decoded record (source: `struct Measurement`). -/
structure Measurement : Type where
  primary : Nat
  rhs : Option Nat
  join : Option String
deriving DecidableEq

/-- Modelled from the spec: the external histogram accumulator (section 4.3 of
the spec; hdrhistogram crate in the source).  The state abstracts the
accumulator as its configured `max_value` and the list of values recorded
into it, newest first. -/
structure Hist : Type where
  max_value : Nat
  values : List Nat
deriving DecidableEq

/-- Modelled from the spec: `create(max_value, sigfigs)` fails when `sigfigs`
exceeds the supported precision (5 significant digits) or `max_value` is
degenerate (the library requires `max_value` at least twice the lowest
discernible value, which the source fixes at 1).  Source call site:
`Histogram::new_with_max(self.max_value, self.sigfigs)`. -/
def Hist.create (max_value : Nat) (sigfigs : Nat) : Except Error Hist :=
  if 2 ≤ max_value ∧ sigfigs ≤ 5 then .ok ⟨max_value, []⟩ else .error .histError

/-- Modelled from the spec: `record(v)` requires `0 ≤ v ≤ max_value` and
fails with a recoverable error otherwise. -/
def Hist.record (h : Hist) (v : Nat) : Except String Hist :=
  if v ≤ h.max_value then .ok { h with values := v :: h.values }
  else .error "value out of range"

/-- Modelled from the spec: `saturating_record(v)` clamps `v` into
`[0, max_value]` before recording and never fails (`v` is already
non-negative as a u64). -/
def Hist.saturating_record (h : Hist) (v : Nat) : Hist :=
  { h with values := min v h.max_value :: h.values }

/-- Interpretation of a u64 bit pattern as an i64 (the source's `x as i64`). -/
def toI64 (n : Nat) : Int :=
  if n % 2 ^ 64 < 2 ^ 63 then ((n % 2 ^ 64 : Nat) : Int)
  else ((n % 2 ^ 64 : Nat) : Int) - 2 ^ 64

/-- Two's-complement wrap-around of i64 arithmetic (release-mode Rust
subtraction of two i64 values). -/
def wrapI64 (x : Int) : Int := (x + 2 ^ 63) % 2 ^ 64 - 2 ^ 63

/-- Reinterpretation of an i64 value as a u64 (the source's `v as u64`):
reduction modulo 2^64, so a negative value becomes `2^64 + v`. -/
def toU64 (x : Int) : Nat := (x % (2 ^ 64 : Int)).toNat

/-- Accumulation of decimal digits; a non-digit character rejects the
string. -/
def parseNatDigits : List Char → Nat → Option Nat
  | [], acc => some acc
  | c :: rest, acc =>
    if c.isDigit then parseNatDigits rest (acc * 10 + (c.toNat - 48)) else none

/-- A non-empty all-digit decimal string, or nothing. -/
def parseNat? (s : String) : Option Nat :=
  match s.data with
  | [] => none
  | c :: rest => parseNatDigits (c :: rest) 0

/-- Decoding of a field as a u64 (source: `value.parse::<u64>()`): a
non-empty string of decimal digits denoting a value below 2^64; anything
else is a `ParseIntError`. -/
def parseU64 (s : String) : Except Error Nat :=
  match parseNat? s with
  | some n => if n < 2 ^ 64 then .ok n else .error .parseIntError
  | none => .error .parseIntError

/-- Source: `get_str` — field at position `idx`, or a `UserError` when the
index is out of bounds for this record. -/
def get_str (row : List String) (idx : Nat) : Except Error String :=
  match row.get? idx with
  | some s => .ok s
  | none => .error (.userError "invalid index in record")

/-- Source: `get` — field at position `idx` decoded as a u64. -/
def get (row : List String) (idx : Nat) : Except Error Nat :=
  match get_str row idx with
  | .ok s => parseU64 s
  | .error e => .error e

/-- Column positions resolved against a file's header (source: the index
fields of `struct Reader`). -/
structure ReaderCfg : Type where
  primary_idx : Nat
  rhs_idx : Option Nat
  join_idx : Option Nat
deriving DecidableEq

/-- Source: `header.iter().position(|name| name == cname)`. -/
def findColumn (header : List String) (cname : String) : Option Nat :=
  header.findIdx? (fun name => name == cname)

/-- Header/column-lookup logic shared verbatim by the source's
`new_uncompressed_reader` and `new_compressed_reader`: a missing primary
column is a fatal `UserError`; a missing rhs or join column silently yields
`none` (the source uses `and_then` with no error path). -/
def new_reader (header : List String) (primary_cname : String)
    (rhs_cname : Option String) (join_cname : Option String) :
    Except Error ReaderCfg :=
  match findColumn header primary_cname with
  | none => .error (.userError (primary_cname ++ " is not a column"))
  | some primary_idx =>
    .ok { primary_idx := primary_idx,
          rhs_idx := rhs_cname.bind (fun c => findColumn header c),
          join_idx := join_cname.bind (fun c => findColumn header c) }

/-- Sequencing of an optional fallible lookup, as in the source's
`match rhs { None => None, Some(Ok(v)) => Some(v), Some(Err(e)) => return Err(e) }`. -/
def seqOpt {α : Type} : Option (Except Error α) → Except Error (Option α)
  | none => .ok none
  | some (.ok v) => .ok (some v)
  | some (.error e) => .error e

/-- One step of `impl Iterator for Reader`: decode a data row into a
`Measurement`.  The source surfaces an rhs decoding error first, then a
join lookup error, then a primary decoding error. -/
def readRow (cfg : ReaderCfg) (row : List String) : Except Error Measurement :=
  match seqOpt (cfg.rhs_idx.map (fun idx => get row idx)) with
  | .error e => .error e
  | .ok rhs =>
    match seqOpt (cfg.join_idx.map (fun idx => get_str row idx)) with
    | .error e => .error e
    | .ok join =>
      match get row cfg.primary_idx with
      | .error e => .error e
      | .ok lhs => .ok { primary := lhs, rhs := rhs, join := join }

/-- Source: `hist.record(v).map_err(|err| UserError(format!("could not record {}", err)))?`. -/
def recordOrFail (hist : Hist) (v : Nat) : Except Error Hist :=
  match hist.record v with
  | .ok h => .ok h
  | .error e => .error (.userError ("could not record " ++ e))

/-- The OOB dispatch of `Args::single_file_to_hist` on one matched pair:
`v = lhs as i64 - rhs as i64`, then record per rule.  Note that
`v as u64` wraps a negative difference to `2^64 + v`. -/
def singleRecordStep (oob : OOBRule) (max_value : Nat) (hist : Hist)
    (lhs rhs : Nat) : Except Error Hist :=
  let v : Int := wrapI64 (toI64 lhs - toI64 rhs)
  match oob with
  | .Error => recordOrFail hist (toU64 v)
  | .Saturate => .ok (hist.saturating_record (toU64 v))
  | .Drop =>
    if 0 ≤ v ∧ v < toI64 max_value then recordOrFail hist (toU64 v)
    else .ok hist

/-- The OOB dispatch of `Args::dual_file_to_hist` on one matched pair: the
`Error` and `Saturate` arms are guarded by `v > 0` and do nothing otherwise. -/
def dualRecordStep (oob : OOBRule) (max_value : Nat) (hist : Hist)
    (lhs rhs : Nat) : Except Error Hist :=
  let v : Int := wrapI64 (toI64 lhs - toI64 rhs)
  match oob with
  | .Error => if 0 < v then recordOrFail hist (toU64 v) else .ok hist
  | .Saturate => if 0 < v then .ok (hist.saturating_record (toU64 v)) else .ok hist
  | .Drop =>
    if 0 ≤ v ∧ v < toI64 max_value then recordOrFail hist (toU64 v)
    else .ok hist

/-- The pending buffer of the merge join (source: `ooo: HashMap<String,
Measurement>`), embedded as an association list; `Buf.insert` replaces any
existing entry for the key, mirroring `HashMap::insert`. -/
abbrev Buf : Type := List (String × Measurement)

/-- Lookup in the pending buffer (first entry with the key). -/
def Buf.get : Buf → String → Option Measurement
  | [], _ => none
  | p :: rest, k => if p.1 = k then some p.2 else Buf.get rest k

/-- Removal of the entry for a key (removes every pair with that key; under
the at-most-once invariant that is the single `HashMap::remove`). -/
def Buf.del : Buf → String → Buf
  | [], _ => []
  | p :: rest, k => if p.1 = k then Buf.del rest k else p :: Buf.del rest k

/-- Insertion, overwriting any stale entry for the key (`HashMap::insert`). -/
def Buf.insert (b : Buf) (k : String) (r : Measurement) : Buf :=
  (k, r) :: Buf.del b k

/-- Keys currently present in the pending buffer. -/
def Buf.keys (b : Buf) : List String := b.map Prod.fst

/-- The merge-join engine state (source: `struct JoinRHS`): the unconsumed
right stream and the pending buffer. -/
structure JoinRHS : Type where
  reader : List (Except Error Measurement)
  ooo : Buf
deriving DecidableEq

/-- The pull loop inside `JoinRHS::take`: pull right rows one at a time; a
reader error propagates; a row without a join key hits
`record.join.clone().unwrap()` and panics; a row matching the requested key
is returned (not buffered); any other row is buffered under its own key. -/
def takeLoop (key : String) :
    List (Except Error Measurement) → Buf →
    Except Error (Option Measurement × List (Except Error Measurement) × Buf)
  | [], buf => .ok (none, [], buf)
  | .error e :: _, _ => .error e
  | .ok r :: rest, buf =>
    match r.join with
    | none => .error .panicked
    | some k =>
      if k = key then .ok (some r, rest, buf)
      else takeLoop key rest (Buf.insert buf k r)

/-- Source: `JoinRHS::take` — a buffered entry for the key is removed and
returned without advancing the right stream; otherwise the pull loop runs;
an exhausted right stream yields `Ok(None)`. -/
def JoinRHS.take (s : JoinRHS) (key : String) :
    Except Error (Option Measurement × JoinRHS) :=
  match Buf.get s.ooo key with
  | some r => .ok (some r, ⟨s.reader, Buf.del s.ooo key⟩)
  | none =>
    match takeLoop key s.reader s.ooo with
    | .error e => .error e
    | .ok (res, rest, buf) => .ok (res, ⟨rest, buf⟩)

/-- Decoded contents of one CSV file: the header row and the data rows. -/
structure CsvFile : Type where
  header : List String
  rows : List (List String)
deriving DecidableEq

/-- The validated configuration (source: `struct Args`), with each file name
replaced by the decoded contents of the named file (`rhs_file` is present
exactly when `rhs_fname` was supplied). -/
structure Args : Type where
  file : CsvFile
  lhs_column : String
  rhs_column : String
  max_value : Nat
  sigfigs : Nat
  rhs_file : Option CsvFile
  join_column : Option String
  oob : OOBRule
deriving DecidableEq

/-- The row loop of `Args::single_file_to_hist`: decode each row; a row
without an rhs value is skipped; otherwise the OOB dispatch runs on the
pair; any error aborts. -/
def singleLoop (oob : OOBRule) (max_value : Nat) (cfg : ReaderCfg) :
    List (List String) → Hist → Except Error Hist
  | [], hist => .ok hist
  | row :: rest, hist =>
    match readRow cfg row with
    | .error e => .error e
    | .ok m =>
      match m.rhs with
      | none => singleLoop oob max_value cfg rest hist
      | some rhs =>
        match singleRecordStep oob max_value hist m.primary rhs with
        | .error e => .error e
        | .ok hist' => singleLoop oob max_value cfg rest hist'

/-- Source: `Args::single_file_to_hist`. -/
def Args.single_file_to_hist (a : Args) : Except Error Hist :=
  match Hist.create a.max_value a.sigfigs with
  | .error e => .error e
  | .ok hist =>
    match new_reader a.file.header a.lhs_column (some a.rhs_column) none with
    | .error e => .error e
    | .ok cfg => singleLoop a.oob a.max_value cfg a.file.rows hist

/-- The row loop of `Args::dual_file_to_hist`: decode each left row; a left
row without a join key is skipped (`continue`); otherwise `take` runs on the
join engine; an unmatched key is skipped; a matched pair goes through the
dual OOB dispatch. -/
def dualLoop (oob : OOBRule) (max_value : Nat) (cfg : ReaderCfg) :
    List (List String) → JoinRHS → Hist → Except Error Hist
  | [], _, hist => .ok hist
  | row :: rest, s, hist =>
    match readRow cfg row with
    | .error e => .error e
    | .ok m =>
      match m.join with
      | none => dualLoop oob max_value cfg rest s hist
      | some k =>
        match JoinRHS.take s k with
        | .error e => .error e
        | .ok (none, s') => dualLoop oob max_value cfg rest s' hist
        | .ok (some r, s') =>
          match dualRecordStep oob max_value hist m.primary r.primary with
          | .error e => .error e
          | .ok hist' => dualLoop oob max_value cfg rest s' hist'

/-- Source: `Args::dual_file_to_hist` (the rhs reader's primary column is
`rhs_column`; the right stream is consumed lazily through the join engine,
embedded here as the pre-mapped list of decoded right rows). -/
def Args.dual_file_to_hist (a : Args) (rhsFile : CsvFile) : Except Error Hist :=
  match Hist.create a.max_value a.sigfigs with
  | .error e => .error e
  | .ok hist =>
    match new_reader a.file.header a.lhs_column none a.join_column with
    | .error e => .error e
    | .ok lcfg =>
      match new_reader rhsFile.header a.rhs_column none a.join_column with
      | .error e => .error e
      | .ok rcfg =>
        dualLoop a.oob a.max_value lcfg a.file.rows
          ⟨rhsFile.rows.map (fun row => readRow rcfg row), []⟩ hist

/-- Source: `Args::to_hist` — dual mode when `rhs_fname` was supplied (a
missing `join_column` is then a `UserError`); otherwise single mode. -/
def Args.to_hist (a : Args) : Except Error Hist :=
  match a.rhs_file with
  | some rhsFile =>
    match a.join_column with
    | none => .error (.userError "join column not supplied")
    | some _ => a.dual_file_to_hist rhsFile
  | none => a.single_file_to_hist

/-- The join trace of the dual-mode loop: the sequence of `take` calls made
for the left rows, paired with their results, together with the final
engine state.  This instruments the join component of `dualLoop` (keyless
left rows are skipped exactly as there). -/
def joinRun : List Measurement → JoinRHS →
    Except Error (List (Measurement × Option Measurement) × JoinRHS)
  | [], s => .ok ([], s)
  | l :: ls, s =>
    match l.join with
    | none => joinRun ls s
    | some k =>
      match JoinRHS.take s k with
      | .error e => .error e
      | .ok (res, s') =>
        match joinRun ls s' with
        | .error e => .error e
        | .ok (trace, s'') => .ok ((l, res) :: trace, s'')

/-- Buffering of a run of right rows in arrival order (the effect of the
pull loop on the pending buffer for rows that do not match). -/
def insertAll (buf : Buf) : List Measurement → Buf
  | [] => buf
  | r :: rest =>
    match r.join with
    | some k => insertAll (Buf.insert buf k r) rest
    | none => insertAll buf rest

/-- The join keys carried by a list of rows, in order. -/
def joinKeys (ms : List Measurement) : List String :=
  ms.filterMap (fun m => m.join)

/-! Arithmetic facts about the machine-integer casts. -/

theorem toI64_of_lt {n : Nat} (h : n < 2 ^ 63) : toI64 n = (n : Int) := by
  have h' : n % 2 ^ 64 = n := Nat.mod_eq_of_lt (by omega)
  unfold toI64
  rw [h', if_pos h]

theorem wrapI64_of {x : Int} (h1 : -(2 ^ 63) ≤ x) (h2 : x < 2 ^ 63) : wrapI64 x = x := by
  have h3 : (x + 2 ^ 63) % 2 ^ 64 = x + 2 ^ 63 := Int.emod_eq_of_lt (by omega) (by omega)
  simp only [wrapI64, h3]
  omega

/-- With both operands in u64-parsed range below 2^63, the i64 difference is
the mathematical difference. -/
theorem diff_eq {lhs rhs : Nat} (h1 : lhs < 2 ^ 63) (h2 : rhs < 2 ^ 63) :
    wrapI64 (toI64 lhs - toI64 rhs) = (lhs : Int) - (rhs : Int) := by
  rw [toI64_of_lt h1, toI64_of_lt h2]
  apply wrapI64_of <;> omega

theorem toU64_of_nonneg {x : Int} (h1 : 0 ≤ x) (h2 : x < 2 ^ 64) :
    toU64 x = x.toNat := by
  simp only [toU64]
  rw [Int.emod_eq_of_lt h1 h2]

/-- A negative i64 value reinterpreted as a u64 lands at `2^64 + x`, far
above any histogram bound below 2^63. -/
theorem toU64_of_neg {x : Int} (h1 : -(2 ^ 63) ≤ x) (h2 : x < 0) :
    toU64 x = (x + 2 ^ 64).toNat := by
  simp only [toU64]
  have h3 : x % 2 ^ 64 = x + 2 ^ 64 := by omega
  rw [h3]

theorem recordOrFail_of_le {hist : Hist} {v : Nat} (h : v ≤ hist.max_value) :
    recordOrFail hist v = .ok { hist with values := v :: hist.values } := by
  simp [recordOrFail, Hist.record, h]

theorem recordOrFail_of_gt {hist : Hist} {v : Nat} (h : hist.max_value < v) :
    recordOrFail hist v =
      .error (.userError ("could not record " ++ "value out of range")) := by
  simp [recordOrFail, Hist.record, Nat.not_le.mpr h]


/-- C3: for every matched pair under the Drop OOB rule (in both single- and
dual-stream mode), the difference `v = lhs - rhs` is recorded in the
histogram if and only if `0 <= v < max_value`; a pair with a difference
outside that range is silently discarded with no error and no histogram
update. -/
theorem C3_drop_records_iff_in_range (max_value : Nat) (hist : Hist) (lhs rhs : Nat)
    (hmv : hist.max_value = max_value) (hmax : max_value < 2 ^ 63)
    (hl : lhs < 2 ^ 63) (hr : rhs < 2 ^ 63) :
    ((0 ≤ (lhs : Int) - rhs ∧ (lhs : Int) - rhs < max_value) →
      singleRecordStep OOBRule.Drop max_value hist lhs rhs =
        .ok { hist with values := ((lhs : Int) - rhs).toNat :: hist.values } ∧
      dualRecordStep OOBRule.Drop max_value hist lhs rhs =
        .ok { hist with values := ((lhs : Int) - rhs).toNat :: hist.values }) ∧
    (¬ (0 ≤ (lhs : Int) - rhs ∧ (lhs : Int) - rhs < max_value) →
      singleRecordStep OOBRule.Drop max_value hist lhs rhs = .ok hist ∧
      dualRecordStep OOBRule.Drop max_value hist lhs rhs = .ok hist) := by
  have hdual : dualRecordStep OOBRule.Drop max_value hist lhs rhs =
      singleRecordStep OOBRule.Drop max_value hist lhs rhs := rfl
  simp only [hdual, singleRecordStep, diff_eq hl hr, toI64_of_lt hmax]
  constructor
  · rintro ⟨h0, hlt⟩
    rw [if_pos ⟨h0, hlt⟩, toU64_of_nonneg h0 (by omega), recordOrFail_of_le (by omega)]
    exact ⟨rfl, rfl⟩
  · intro h
    rw [if_neg h]
    exact ⟨rfl, rfl⟩



/-- C1 counterexample: in single-stream mode under Saturate with
`max_value = 100`, the pair `(0, 5)` has difference `-5`; the claim requires
it to be recorded as `0`, but the code records `100`: the negative i64 is
cast to u64 (wrapping to `2^64 - 5`) before the saturating record, which
then clamps to the top of the range, not the bottom. -/
theorem C1_counterexample :
    singleRecordStep OOBRule.Saturate 100 ⟨100, []⟩ 0 5 = .ok ⟨100, [100]⟩ ∧
    singleRecordStep OOBRule.Saturate 100 ⟨100, []⟩ 0 5 ≠ .ok ⟨100, [0]⟩ := by
  exact ⟨rfl, by decide⟩

/-- C1 (amended): under Saturate recording never errors.  In single-stream
mode the u64-wrapped difference is clamped to `max_value`: a difference in
`[0, max_value]` is recorded exactly, a difference above `max_value`
records `max_value`, and a negative difference also records `max_value`
(not 0), because the i64 difference is cast to u64 before the saturating
record.  In dual-stream mode a difference `<= 0` is skipped entirely and a
positive difference records its clamp to `max_value`. -/
theorem C1_saturate_clamps_wrapped (max_value : Nat) (hist : Hist) (lhs rhs : Nat)
    (hmv : hist.max_value = max_value) (hmax : max_value < 2 ^ 63)
    (hl : lhs < 2 ^ 63) (hr : rhs < 2 ^ 63) :
    (0 ≤ (lhs : Int) - rhs →
      singleRecordStep OOBRule.Saturate max_value hist lhs rhs =
        .ok { hist with values := min ((lhs : Int) - rhs).toNat max_value :: hist.values }) ∧
    ((lhs : Int) - rhs < 0 →
      singleRecordStep OOBRule.Saturate max_value hist lhs rhs =
        .ok { hist with values := max_value :: hist.values }) ∧
    ((lhs : Int) - rhs ≤ 0 →
      dualRecordStep OOBRule.Saturate max_value hist lhs rhs = .ok hist) ∧
    (0 < (lhs : Int) - rhs →
      dualRecordStep OOBRule.Saturate max_value hist lhs rhs =
        .ok { hist with values := min ((lhs : Int) - rhs).toNat max_value :: hist.values }) := by
  refine ⟨?_, ?_, ?_, ?_⟩
  · intro h0
    simp only [singleRecordStep, diff_eq hl hr, toU64_of_nonneg h0 (by omega),
      Hist.saturating_record, hmv]
  · intro hneg
    have h2 : toU64 ((lhs : Int) - rhs) = (((lhs : Int) - rhs) + 2 ^ 64).toNat :=
      toU64_of_neg (by omega) hneg
    have h3 : min ((((lhs : Int) - rhs) + 2 ^ 64).toNat) max_value = max_value := by omega
    simp only [singleRecordStep, diff_eq hl hr, h2, Hist.saturating_record, hmv, h3]
  · intro hle
    simp only [dualRecordStep, diff_eq hl hr]
    rw [if_neg (not_lt.mpr hle)]
  · intro hpos
    simp only [dualRecordStep, diff_eq hl hr, toU64_of_nonneg (le_of_lt hpos) (by omega),
      Hist.saturating_record, hmv]
    rw [if_pos hpos]

/-- C1 witness: with `max_value = 100`, the pair `(600, 100)` (difference
500) records 100 and never errors, and the pair `(0, 5)` (difference -5)
records without error; in dual mode `(0, 5)` is skipped. -/
theorem C1_witness :
    ((Hist.mk 100 []).max_value = 100 ∧ (100 : Nat) < 2 ^ 63 ∧ (600 : Nat) < 2 ^ 63 ∧
      (0 : Int) ≤ (600 : Int) - 100) ∧
    singleRecordStep OOBRule.Saturate 100 ⟨100, []⟩ 600 100 = .ok ⟨100, [100]⟩ ∧
    singleRecordStep OOBRule.Saturate 100 ⟨100, []⟩ 0 5 = .ok ⟨100, [100]⟩ ∧
    dualRecordStep OOBRule.Saturate 100 ⟨100, []⟩ 0 5 = .ok ⟨100, []⟩ := by
  have h1 := (C1_saturate_clamps_wrapped 100 ⟨100, []⟩ 600 100 rfl (by norm_num)
    (by norm_num) (by norm_num)).1 (by norm_num)
  have h2 := (C1_saturate_clamps_wrapped 100 ⟨100, []⟩ 0 5 rfl (by norm_num)
    (by norm_num) (by norm_num)).2.1 (by norm_num)
  have h3 := (C1_saturate_clamps_wrapped 100 ⟨100, []⟩ 0 5 rfl (by norm_num)
    (by norm_num) (by norm_num)).2.2.1 (by norm_num)
  refine ⟨⟨rfl, by norm_num, by norm_num, by norm_num⟩, ?_, h2, h3⟩
  simpa using h1

/-- C2 counterexample: two matched pairs the claim calls fatal that the
code accepts.  In dual-stream mode under Error, the pair `(5, 10)`
(difference `-5`, outside `[0, max_value)`) is silently skipped with no
error and no histogram update; in single-stream mode the pair `(100, 0)`
(difference exactly `max_value = 100`, outside `[0, max_value)`) is
recorded successfully. -/
theorem C2_counterexample :
    dualRecordStep OOBRule.Error 100 ⟨100, []⟩ 5 10 = .ok ⟨100, []⟩ ∧
    singleRecordStep OOBRule.Error 100 ⟨100, []⟩ 100 0 = .ok ⟨100, [100]⟩ := by
  exact ⟨rfl, rfl⟩

/-- C2 (amended): under the Error OOB rule, in single-stream mode a
difference `v < 0` or `v > max_value` is a fatal recording error (the
negative value wraps to a huge u64), while `v` in `[0, max_value]` records
without error; in dual-stream mode a difference `v <= 0` is silently
skipped (no error, no update), only `v > max_value` is fatal, and
`0 < v <= max_value` records without error.  A fatal recording error
aborts the remainder of the single-stream row loop immediately, so no
output is produced. -/
theorem C2_error_rule (max_value : Nat) (hist : Hist) (lhs rhs : Nat)
    (hmv : hist.max_value = max_value) (hmax : max_value < 2 ^ 63)
    (hl : lhs < 2 ^ 63) (hr : rhs < 2 ^ 63) :
    ((lhs : Int) - rhs < 0 ∨ (max_value : Int) < (lhs : Int) - rhs →
      ∃ msg, singleRecordStep OOBRule.Error max_value hist lhs rhs =
        .error (.userError msg)) ∧
    (0 ≤ (lhs : Int) - rhs ∧ (lhs : Int) - rhs ≤ max_value →
      singleRecordStep OOBRule.Error max_value hist lhs rhs =
        .ok { hist with values := ((lhs : Int) - rhs).toNat :: hist.values }) ∧
    ((lhs : Int) - rhs ≤ 0 →
      dualRecordStep OOBRule.Error max_value hist lhs rhs = .ok hist) ∧
    ((max_value : Int) < (lhs : Int) - rhs →
      ∃ msg, dualRecordStep OOBRule.Error max_value hist lhs rhs =
        .error (.userError msg)) ∧
    (0 < (lhs : Int) - rhs ∧ (lhs : Int) - rhs ≤ max_value →
      dualRecordStep OOBRule.Error max_value hist lhs rhs =
        .ok { hist with values := ((lhs : Int) - rhs).toNat :: hist.values }) ∧
    (∀ oob cfg row rest hist0 m r e, readRow cfg row = .ok m → m.rhs = some r →
      singleRecordStep oob max_value hist0 m.primary r = .error e →
      singleLoop oob max_value cfg (row :: rest) hist0 = .error e) := by
  refine ⟨?_, ?_, ?_, ?_, ?_, ?_⟩
  · rintro (hneg | hbig)
    · have h2 : toU64 ((lhs : Int) - rhs) = (((lhs : Int) - rhs) + 2 ^ 64).toNat :=
        toU64_of_neg (by omega) hneg
      refine ⟨"could not record " ++ "value out of range", ?_⟩
      simp only [singleRecordStep, diff_eq hl hr, h2]
      exact recordOrFail_of_gt (by omega)
    · have hge : 0 ≤ (lhs : Int) - rhs := by omega
      refine ⟨"could not record " ++ "value out of range", ?_⟩
      simp only [singleRecordStep, diff_eq hl hr,
        toU64_of_nonneg hge (by omega)]
      exact recordOrFail_of_gt (by omega)
  · rintro ⟨h0, hle⟩
    simp only [singleRecordStep, diff_eq hl hr, toU64_of_nonneg h0 (by omega)]
    exact recordOrFail_of_le (by omega)
  · intro hle
    simp only [dualRecordStep, diff_eq hl hr]
    rw [if_neg (not_lt.mpr hle)]
  · intro hbig
    have hge : 0 ≤ (lhs : Int) - rhs := by omega
    refine ⟨"could not record " ++ "value out of range", ?_⟩
    simp only [dualRecordStep, diff_eq hl hr, toU64_of_nonneg hge (by omega)]
    rw [if_pos (by omega)]
    exact recordOrFail_of_gt (by omega)
  · rintro ⟨h0, hle⟩
    simp only [dualRecordStep, diff_eq hl hr, toU64_of_nonneg (le_of_lt h0) (by omega)]
    rw [if_pos h0]
    exact recordOrFail_of_le (by omega)
  · intro oob cfg row rest hist0 m r e hrow hrhs hstep
    simp only [singleLoop, hrow, hrhs, hstep]

/-- C2 witness: with `max_value = 100`, the single-stream pair `(0, 5)`
(difference -5) is a fatal error, the pair `(20, 10)` records 10, the
dual-stream pair `(5, 10)` is skipped, and a failing record aborts the row
loop of a concrete stream. -/
theorem C2_witness :
    ((Hist.mk 100 []).max_value = 100 ∧ ((0 : Int) - 5 < 0 ∨ (100 : Int) < 0 - 5)) ∧
    (∃ msg, singleRecordStep OOBRule.Error 100 ⟨100, []⟩ 0 5 = .error (.userError msg)) ∧
    singleRecordStep OOBRule.Error 100 ⟨100, []⟩ 20 10 = .ok ⟨100, [10]⟩ ∧
    dualRecordStep OOBRule.Error 100 ⟨100, []⟩ 5 10 = .ok ⟨100, []⟩ ∧
    singleLoop OOBRule.Error 100 ⟨0, some 1, none⟩ [["0", "5"]] ⟨100, []⟩ =
      .error (.userError ("could not record " ++ "value out of range")) := by
  have hC := C2_error_rule 100 (Hist.mk 100 []) 0 5 rfl (by norm_num) (by norm_num)
    (by norm_num)
  have h1 := hC.1 (Or.inl (by norm_num))
  have h2 := (C2_error_rule 100 ⟨100, []⟩ 20 10 rfl (by norm_num) (by norm_num)
    (by norm_num)).2.1 (by norm_num)
  have h3 := (C2_error_rule 100 ⟨100, []⟩ 5 10 rfl (by norm_num) (by norm_num)
    (by norm_num)).2.2.1 (by norm_num)
  have h4 := hC.2.2.2.2.2 OOBRule.Error ⟨0, some 1, none⟩ ["0", "5"] [] ⟨100, []⟩
    ⟨0, some 5, none⟩ 5 (.userError ("could not record " ++ "value out of range"))
    (by decide) (by decide) (by decide)
  exact ⟨⟨rfl, by norm_num⟩, h1, by simpa using h2, h3, by assumption⟩

/-- C10: in dual-stream mode, a matched pair with difference exactly 0 is
silently skipped under the Error and Saturate rules (no error, no record),
while the Drop rule records the 0. -/
theorem C10_dual_zero_skipped (max_value : Nat) (hist : Hist) (lhs rhs : Nat)
    (hmv : hist.max_value = max_value) (hmax : max_value < 2 ^ 63) (hpos : 0 < max_value)
    (hl : lhs < 2 ^ 63) (hr : rhs < 2 ^ 63) (heq : (lhs : Int) - rhs = 0) :
    dualRecordStep OOBRule.Error max_value hist lhs rhs = .ok hist ∧
    dualRecordStep OOBRule.Saturate max_value hist lhs rhs = .ok hist ∧
    dualRecordStep OOBRule.Drop max_value hist lhs rhs =
      .ok { hist with values := 0 :: hist.values } := by
  refine ⟨?_, ?_, ?_⟩
  · simp only [dualRecordStep, diff_eq hl hr, heq]
    norm_num
  · simp only [dualRecordStep, diff_eq hl hr, heq]
    norm_num
  · simp only [dualRecordStep, diff_eq hl hr, heq, toI64_of_lt hmax]
    rw [if_pos ⟨le_refl 0, by exact_mod_cast hpos⟩]
    have h0 : toU64 0 = 0 := rfl
    rw [h0, recordOrFail_of_le (by omega)]

/-- C10 witness: the dual-stream pair `(5, 5)` with `max_value = 100`. -/
theorem C10_witness :
    ((Hist.mk 100 []).max_value = 100 ∧ (0 : Nat) < 100 ∧ (5 : Int) - 5 = 0) ∧
    dualRecordStep OOBRule.Error 100 ⟨100, []⟩ 5 5 = .ok ⟨100, []⟩ ∧
    dualRecordStep OOBRule.Saturate 100 ⟨100, []⟩ 5 5 = .ok ⟨100, []⟩ ∧
    dualRecordStep OOBRule.Drop 100 ⟨100, []⟩ 5 5 = .ok ⟨100, [0]⟩ := by
  have h := C10_dual_zero_skipped 100 ⟨100, []⟩ 5 5 rfl (by norm_num) (by norm_num)
    (by norm_num) (by norm_num) (by norm_num)
  exact ⟨⟨rfl, by norm_num, by norm_num⟩, h.1, h.2.1, h.2.2⟩

/-- C3 witness: with `max_value = 100`, the pair `(120, 100)` (difference
20, in range) records 20 in both modes, and the pair `(80, 100)`
(difference -20, out of range) is silently dropped in both modes. -/
theorem C3_witness :
    ((Hist.mk 100 []).max_value = 100 ∧
      (0 ≤ (120 : Int) - 100 ∧ (120 : Int) - 100 < 100) ∧
      ¬ (0 ≤ (80 : Int) - 100 ∧ (80 : Int) - 100 < 100)) ∧
    singleRecordStep OOBRule.Drop 100 ⟨100, []⟩ 120 100 = .ok ⟨100, [20]⟩ ∧
    dualRecordStep OOBRule.Drop 100 ⟨100, []⟩ 120 100 = .ok ⟨100, [20]⟩ ∧
    singleRecordStep OOBRule.Drop 100 ⟨100, []⟩ 80 100 = .ok ⟨100, []⟩ ∧
    dualRecordStep OOBRule.Drop 100 ⟨100, []⟩ 80 100 = .ok ⟨100, []⟩ := by
  have h1 := (C3_drop_records_iff_in_range 100 ⟨100, []⟩ 120 100 rfl (by norm_num)
    (by norm_num) (by norm_num)).1 (by norm_num)
  have h2 := (C3_drop_records_iff_in_range 100 ⟨100, []⟩ 80 100 rfl (by norm_num)
    (by norm_num) (by norm_num)).2 (by norm_num)
  refine ⟨⟨rfl, by norm_num, by norm_num⟩, ?_, ?_, h2.1, h2.2⟩
  · simpa using h1.1
  · simpa using h1.2



/-! Facts about the pending-buffer association list. -/

theorem Buf.keys_cons (p : String × Measurement) (rest : Buf) :
    Buf.keys (p :: rest) = p.1 :: Buf.keys rest := rfl

theorem Buf.get_insert_self (b : Buf) (k : String) (r : Measurement) :
    Buf.get (Buf.insert b k r) k = some r := by
  simp [Buf.insert, Buf.get]

theorem Buf.get_del_ne (b : Buf) (k x : String) (h : x ≠ k) :
    Buf.get (Buf.del b k) x = Buf.get b x := by
  induction b with
  | nil => rfl
  | cons p rest ih =>
    by_cases hp : p.1 = k
    · rw [Buf.del, if_pos hp, ih, Buf.get, if_neg (by rw [hp]; exact fun he => h he.symm)]
    · rw [Buf.del, if_neg hp]
      by_cases hx : p.1 = x
      · rw [Buf.get, if_pos hx, Buf.get, if_pos hx]
      · rw [Buf.get, if_neg hx, Buf.get, if_neg hx, ih]

theorem Buf.get_insert_ne (b : Buf) (k x : String) (r : Measurement) (h : k ≠ x) :
    Buf.get (Buf.insert b k r) x = Buf.get b x := by
  rw [Buf.insert, Buf.get, if_neg h, Buf.get_del_ne b k x (fun he => h he.symm)]

theorem Buf.del_sublist (b : Buf) (k : String) : (Buf.del b k).Sublist b := by
  induction b with
  | nil => exact List.Sublist.refl _
  | cons p rest ih =>
    by_cases hp : p.1 = k
    · rw [Buf.del, if_pos hp]
      exact ih.trans (List.sublist_cons_self p rest)
    · rw [Buf.del, if_neg hp]
      exact ih.cons₂ p

theorem Buf.not_mem_keys_del (b : Buf) (k : String) :
    k ∉ Buf.keys (Buf.del b k) := by
  induction b with
  | nil => simp [Buf.del, Buf.keys]
  | cons p rest ih =>
    by_cases hp : p.1 = k
    · rw [Buf.del, if_pos hp]; exact ih
    · rw [Buf.del, if_neg hp, Buf.keys, List.map_cons]
      intro hmem
      rcases List.mem_cons.mp hmem with h | h
      · exact hp h.symm
      · exact ih h

theorem Buf.nodup_keys_del (b : Buf) (k : String) (h : (Buf.keys b).Nodup) :
    (Buf.keys (Buf.del b k)).Nodup :=
  ((Buf.del_sublist b k).map Prod.fst).nodup h

theorem Buf.nodup_keys_insert (b : Buf) (k : String) (r : Measurement)
    (h : (Buf.keys b).Nodup) : (Buf.keys (Buf.insert b k r)).Nodup := by
  rw [Buf.insert, Buf.keys, List.map_cons]
  exact List.Nodup.cons (Buf.not_mem_keys_del b k) (Buf.nodup_keys_del b k h)

theorem Buf.get_eq_none_iff (b : Buf) (k : String) :
    Buf.get b k = none ↔ k ∉ Buf.keys b := by
  induction b with
  | nil => simp [Buf.get, Buf.keys]
  | cons p rest ih =>
    rw [Buf.keys, List.map_cons]
    by_cases hp : p.1 = k
    · rw [Buf.get, if_pos hp]
      simp [hp]
    · rw [Buf.get, if_neg hp]
      simp only [List.mem_cons, ih]
      constructor
      · intro h hmem
        rcases hmem with h1 | h1
        · exact hp h1.symm
        · exact h h1
      · intro h
        exact fun h1 => h (Or.inr h1)

theorem Buf.get_mem (b : Buf) (k : String) (r : Measurement)
    (h : Buf.get b k = some r) : (k, r) ∈ b := by
  induction b with
  | nil => simp [Buf.get] at h
  | cons p rest ih =>
    by_cases hp : p.1 = k
    · rw [Buf.get, if_pos hp] at h
      injection h with h2
      exact List.mem_cons.mpr (Or.inl (by rw [← hp, ← h2]))
    · rw [Buf.get, if_neg hp] at h
      exact List.mem_cons_of_mem p (ih h)

theorem Buf.mem_keys_of_get (b : Buf) (k : String) (r : Measurement)
    (h : Buf.get b k = some r) : k ∈ Buf.keys b :=
  List.mem_map.mpr ⟨(k, r), Buf.get_mem b k r h, rfl⟩

theorem Buf.del_of_not_mem (b : Buf) (k : String) (h : k ∉ Buf.keys b) :
    Buf.del b k = b := by
  induction b with
  | nil => rfl
  | cons p rest ih =>
    rw [Buf.keys, List.map_cons] at h
    rw [Buf.del, if_neg (fun hp => h (List.mem_cons.mpr (Or.inl hp.symm))),
      ih (fun hm => h (List.mem_cons.mpr (Or.inr hm)))]

theorem Buf.keys_del_of_nodup (b : Buf) (k : String) (h : (Buf.keys b).Nodup) :
    Buf.keys (Buf.del b k) = (Buf.keys b).erase k := by
  induction b with
  | nil => rfl
  | cons p rest ih =>
    rw [Buf.keys_cons] at h
    by_cases hp : p.1 = k
    · subst hp
      rw [Buf.del, if_pos rfl, Buf.del_of_not_mem rest p.1 (List.nodup_cons.mp h).1,
        Buf.keys_cons, List.erase_cons_head]
    · rw [Buf.del, if_neg hp, Buf.keys_cons, ih (List.nodup_cons.mp h).2,
        Buf.keys_cons, List.erase_cons_tail]
      simp [hp]

/-! The pull loop of `JoinRHS::take`. -/

theorem takeLoop_nodup (key : String) :
    ∀ (reader : List (Except Error Measurement)) (buf : Buf) res rest buf',
    (Buf.keys buf).Nodup → takeLoop key reader buf = .ok (res, rest, buf') →
    (Buf.keys buf').Nodup := by
  intro reader
  induction reader with
  | nil =>
    intro buf res rest buf' hnd heq
    simp only [takeLoop, Except.ok.injEq, Prod.mk.injEq] at heq
    obtain ⟨-, -, rfl⟩ := heq
    exact hnd
  | cons x xs ih =>
    intro buf res rest buf' hnd heq
    match x with
    | .error e => simp [takeLoop] at heq
    | .ok r =>
      cases hj : r.join with
      | none => simp only [takeLoop, hj] at heq; exact absurd heq (by simp)
      | some k =>
        simp only [takeLoop, hj] at heq
        by_cases hk : k = key
        · rw [if_pos hk] at heq
          simp only [Except.ok.injEq, Prod.mk.injEq] at heq
          obtain ⟨-, -, rfl⟩ := heq
          exact hnd
        · rw [if_neg hk] at heq
          exact ih _ _ _ _ (Buf.nodup_keys_insert buf k r hnd) heq

theorem takeLoop_exhaust (key : String) :
    ∀ (reader : List (Except Error Measurement)) (buf : Buf),
    (∀ x ∈ reader, ∃ r k, x = .ok r ∧ (r : Measurement).join = some k ∧ k ≠ key) →
    ∃ buf', takeLoop key reader buf = .ok (none, [], buf') := by
  intro reader
  induction reader with
  | nil => exact fun buf _ => ⟨buf, rfl⟩
  | cons x xs ih =>
    intro buf hall
    obtain ⟨r, k, rfl, hj, hk⟩ := hall x (List.mem_cons_self x xs)
    simp only [takeLoop, hj]
    rw [if_neg hk]
    exact ih (Buf.insert buf k r)
      (fun y hy => hall y (List.mem_cons_of_mem (Except.ok r) hy))

/-- C4 counterexample: a right-stream row with an absent join key is not
skipped silently; pulling it inside `take` hits the `unwrap` of the missing
key and panics (modelled as the `panicked` error), abnormally terminating
`take`. -/
theorem C4_counterexample :
    JoinRHS.take ⟨[.ok ⟨1, none, none⟩], []⟩ "A" = .error .panicked := rfl

/-- C4 (amended): a right-stream row whose join key is absent never enters
the Pending Buffer and never matches, but not by a silent skip: when the
pull loop reaches it, `take` panics (aborting the run). -/
theorem C4_keyless_right_row_panics (s : JoinRHS) (key : String) (r : Measurement)
    (rest : List (Except Error Measurement))
    (hbuf : Buf.get s.ooo key = none)
    (hreader : s.reader = .ok r :: rest) (hjoin : r.join = none) :
    JoinRHS.take s key = .error .panicked := by
  simp only [JoinRHS.take, hbuf, hreader, takeLoop, hjoin]

/-- C4 witness: a concrete engine state whose next right row has no join
key. -/
theorem C4_witness :
    (Buf.get ([] : Buf) "A" = none ∧ (Measurement.mk 2 none none).join = none) ∧
    JoinRHS.take ⟨[.ok ⟨2, none, none⟩], []⟩ "A" = .error .panicked :=
  ⟨⟨rfl, rfl⟩, C4_keyless_right_row_panics ⟨[.ok ⟨2, none, none⟩], []⟩ "A"
    ⟨2, none, none⟩ [] rfl rfl rfl⟩

/-- C5: characterization of `take(key)`: a buffered entry for `key` is
removed and returned with no stream advance; otherwise rows are pulled one
at a time: a pulled row keyed `key` is returned immediately without being
buffered, any other pulled row is inserted into the buffer under its own
key and the loop continues, and an exhausted right stream yields "no match"
(`Ok(None)`), not an error. -/
theorem C5_take_characterization :
    (∀ (s : JoinRHS) (key : String) (r : Measurement),
      Buf.get s.ooo key = some r →
      JoinRHS.take s key = .ok (some r, ⟨s.reader, Buf.del s.ooo key⟩)) ∧
    (∀ (s : JoinRHS) (key : String) (r : Measurement) rest,
      Buf.get s.ooo key = none → s.reader = .ok r :: rest → r.join = some key →
      JoinRHS.take s key = .ok (some r, ⟨rest, s.ooo⟩)) ∧
    (∀ (s : JoinRHS) (key : String) (r : Measurement) rest k,
      Buf.get s.ooo key = none → s.reader = .ok r :: rest → r.join = some k →
      k ≠ key →
      JoinRHS.take s key = JoinRHS.take ⟨rest, Buf.insert s.ooo k r⟩ key) ∧
    (∀ (s : JoinRHS) (key : String),
      Buf.get s.ooo key = none →
      (∀ x ∈ s.reader, ∃ r k, x = .ok r ∧ (r : Measurement).join = some k ∧ k ≠ key) →
      ∃ buf, JoinRHS.take s key = .ok (none, ⟨[], buf⟩)) := by
  refine ⟨?_, ?_, ?_, ?_⟩
  · intro s key r h
    simp only [JoinRHS.take, h]
  · intro s key r rest hbuf hreader hj
    simp only [JoinRHS.take, hbuf, hreader, takeLoop, hj]
    simp
  · intro s key r rest k hbuf hreader hj hk
    have h2 : Buf.get (Buf.insert s.ooo k r) key = none := by
      rw [Buf.get_insert_ne s.ooo k key r hk]; exact hbuf
    simp only [JoinRHS.take, hbuf, hreader, takeLoop, hj, if_neg hk, h2]
  · intro s key hbuf hall
    obtain ⟨buf', hloop⟩ := takeLoop_exhaust key s.reader s.ooo hall
    refine ⟨buf', ?_⟩
    simp only [JoinRHS.take, hbuf, hloop]

/-- C5 witness: concrete instances of all four behaviors of `take`. -/
theorem C5_witness :
    (Buf.get [("K", Measurement.mk 3 none (some "K"))] "K" =
      some (Measurement.mk 3 none (some "K")) ∧
     (Measurement.mk 4 none (some "J")).join = some "J" ∧
     (Measurement.mk 5 none (some "X")).join = some "X" ∧ "X" ≠ "J") ∧
    JoinRHS.take ⟨[.ok ⟨6, none, some "Z"⟩], [("K", ⟨3, none, some "K"⟩)]⟩ "K" =
      .ok (some ⟨3, none, some "K"⟩, ⟨[.ok ⟨6, none, some "Z"⟩], []⟩) ∧
    JoinRHS.take ⟨[.ok ⟨4, none, some "J"⟩], []⟩ "J" =
      .ok (some ⟨4, none, some "J"⟩, ⟨[], []⟩) ∧
    JoinRHS.take ⟨[.ok ⟨5, none, some "X"⟩, .ok ⟨4, none, some "J"⟩], []⟩ "J" =
      JoinRHS.take ⟨[.ok ⟨4, none, some "J"⟩], Buf.insert [] "X" ⟨5, none, some "X"⟩⟩ "J" ∧
    (∃ buf, JoinRHS.take ⟨[.ok ⟨5, none, some "X"⟩], []⟩ "J" =
      .ok (none, ⟨[], buf⟩)) := by
  refine ⟨⟨rfl, rfl, rfl, by decide⟩, ?_, ?_, ?_, ?_⟩
  · exact C5_take_characterization.1 ⟨[.ok ⟨6, none, some "Z"⟩],
      [("K", ⟨3, none, some "K"⟩)]⟩ "K" ⟨3, none, some "K"⟩ rfl
  · exact C5_take_characterization.2.1 ⟨[.ok ⟨4, none, some "J"⟩], []⟩ "J"
      ⟨4, none, some "J"⟩ [] rfl rfl rfl
  · exact C5_take_characterization.2.2.1
      ⟨[.ok ⟨5, none, some "X"⟩, .ok ⟨4, none, some "J"⟩], []⟩ "J"
      ⟨5, none, some "X"⟩ [.ok ⟨4, none, some "J"⟩] "X" rfl rfl rfl (by decide)
  · exact C5_take_characterization.2.2.2 ⟨[.ok ⟨5, none, some "X"⟩], []⟩ "J" rfl
      (by intro x hx
          simp only [List.mem_singleton] at hx
          exact ⟨⟨5, none, some "X"⟩, "X", hx, rfl, by decide⟩)

/-- C9: the pending-buffer invariant: a `take` step from a state whose
buffer keys are distinct yields a state whose buffer keys are distinct (a
key appears at most once); and when the pull loop reads a row whose key is
already buffered, the new row overwrites the stale entry, so a subsequent
`take` of that key returns the most recently buffered row. -/
theorem C9_buffer_invariant :
    (∀ (s : JoinRHS) (key : String) res s',
      (Buf.keys s.ooo).Nodup → JoinRHS.take s key = .ok (res, s') →
      (Buf.keys s'.ooo).Nodup) ∧
    (∀ (s : JoinRHS) (k tk : String) (old fresh mrow : Measurement) rest,
      s.reader = .ok fresh :: .ok mrow :: rest →
      fresh.join = some k → mrow.join = some tk → tk ≠ k →
      Buf.get s.ooo tk = none → Buf.get s.ooo k = some old →
      ∃ s', JoinRHS.take s tk = .ok (some mrow, s') ∧
        Buf.get s'.ooo k = some fresh ∧
        JoinRHS.take s' k = .ok (some fresh, ⟨s'.reader, Buf.del s'.ooo k⟩)) := by
  constructor
  · intro s key res s' hnd htake
    rw [JoinRHS.take] at htake
    cases hbuf : Buf.get s.ooo key with
    | some r =>
      rw [hbuf] at htake
      simp only [Except.ok.injEq, Prod.mk.injEq] at htake
      obtain ⟨-, rfl⟩ := htake
      exact Buf.nodup_keys_del s.ooo key hnd
    | none =>
      rw [hbuf] at htake
      cases hloop : takeLoop key s.reader s.ooo with
      | error e => rw [hloop] at htake; simp at htake
      | ok t =>
        obtain ⟨res0, rest0, buf0⟩ := t
        rw [hloop] at htake
        simp only [Except.ok.injEq, Prod.mk.injEq] at htake
        obtain ⟨-, rfl⟩ := htake
        exact takeLoop_nodup key s.reader s.ooo res0 rest0 buf0 hnd hloop
  · intro s k tk old fresh mrow rest hreader hfresh hmrow htk hbtk hbk
    refine ⟨⟨rest, Buf.insert s.ooo k fresh⟩, ?_, ?_, ?_⟩
    · simp only [JoinRHS.take, hbtk, hreader, takeLoop, hfresh, hmrow,
        if_neg (fun h : k = tk => htk h.symm)]
      simp
    · exact Buf.get_insert_self s.ooo k fresh
    · simp only [JoinRHS.take, Buf.get_insert_self s.ooo k fresh]

/-- C9 witness: a concrete state whose buffered key "A" is overwritten by a
newly pulled row before being matched. -/
theorem C9_witness :
    ((Buf.keys [("A", Measurement.mk 1 none (some "A"))]).Nodup ∧
     (Measurement.mk 9 none (some "A")).join = some "A" ∧
     (Measurement.mk 7 none (some "T")).join = some "T" ∧ "T" ≠ "A" ∧
     Buf.get [("A", Measurement.mk 1 none (some "A"))] "T" = none ∧
     Buf.get [("A", Measurement.mk 1 none (some "A"))] "A" =
       some (Measurement.mk 1 none (some "A"))) ∧
    (Buf.keys (JoinRHS.ooo ⟨[], []⟩)).Nodup ∧
    (∃ s', JoinRHS.take ⟨[.ok ⟨9, none, some "A"⟩, .ok ⟨7, none, some "T"⟩],
        [("A", ⟨1, none, some "A"⟩)]⟩ "T" = .ok (some ⟨7, none, some "T"⟩, s') ∧
      Buf.get s'.ooo "A" = some ⟨9, none, some "A"⟩ ∧
      JoinRHS.take s' "A" =
        .ok (some ⟨9, none, some "A"⟩, ⟨s'.reader, Buf.del s'.ooo "A"⟩)) := by
  refine ⟨⟨by decide, rfl, rfl, by decide, rfl, rfl⟩, ?_, ?_⟩
  · exact C9_buffer_invariant.1 ⟨[.ok ⟨1, none, some "A"⟩], []⟩ "A"
      (some ⟨1, none, some "A"⟩) ⟨[], []⟩ (by decide) (by decide)
  · exact C9_buffer_invariant.2
      ⟨[.ok ⟨9, none, some "A"⟩, .ok ⟨7, none, some "T"⟩],
        [("A", ⟨1, none, some "A"⟩)]⟩ "A" "T" ⟨1, none, some "A"⟩
      ⟨9, none, some "A"⟩ ⟨7, none, some "T"⟩ [] rfl rfl rfl (by decide) rfl rfl



/-- A single-stream row loop whose reader has no rhs or join column resolved
skips every row (each decodes with no rhs value), leaving the histogram
untouched. -/
theorem singleLoop_no_rhs (oob : OOBRule) (max_value : Nat) (cfg : ReaderCfg)
    (hrhs : cfg.rhs_idx = none) (hjoin : cfg.join_idx = none) :
    ∀ (rows : List (List String)) (hist : Hist),
    (∀ row ∈ rows, ∃ n, get row cfg.primary_idx = .ok n) →
    singleLoop oob max_value cfg rows hist = .ok hist := by
  intro rows
  induction rows with
  | nil => intro hist _; rfl
  | cons row rest ih =>
    intro hist hall
    obtain ⟨n, hget⟩ := hall row (List.mem_cons_self row rest)
    have hread : readRow cfg row = .ok ⟨n, none, none⟩ := by
      simp [readRow, hrhs, hjoin, seqOpt, hget]
    simp only [singleLoop, hread]
    exact ih hist (fun r hr => hall r (List.mem_cons_of_mem row hr))

/-- C6 counterexample: a configured secondary column absent from the header
is not an error: with header `[a, b]`, lhs column `a` and rhs column `zzz`,
the run succeeds and emits an empty histogram (every row decodes with no
secondary value and is skipped). -/
theorem C6_counterexample :
    Args.to_hist ⟨⟨["a", "b"], [["1", "2"]]⟩, "a", "zzz", 100, 2, none, none,
      OOBRule.Error⟩ = .ok ⟨100, []⟩ := by decide

/-- C6 (amended): only a reader's primary column (the lhs column in the
main file; in dual mode the rhs column in the rhs file) being absent from
the header is a fatal error.  An absent secondary (rhs) column in
single-stream mode is silently resolved to no column: every row then lacks
a secondary value, and the run succeeds with an empty histogram. -/
theorem C6_column_lookup :
    (∀ (header : List String) (primary_cname : String) rhs_cname join_cname,
      findColumn header primary_cname = none →
      ∃ msg, new_reader header primary_cname rhs_cname join_cname =
        .error (.userError msg)) ∧
    (∀ (a : Args) (pidx : Nat), a.rhs_file = none →
      findColumn a.file.header a.lhs_column = some pidx →
      findColumn a.file.header a.rhs_column = none →
      2 ≤ a.max_value → a.sigfigs ≤ 5 →
      (∀ row ∈ a.file.rows, ∃ n, get row pidx = .ok n) →
      a.to_hist = .ok ⟨a.max_value, []⟩) := by
  constructor
  · intro header primary_cname rhs_cname join_cname hnone
    exact ⟨primary_cname ++ " is not a column", by simp only [new_reader, hnone]⟩
  · intro a pidx hno hp hrc hmax hsig hall
    have hcreate : Hist.create a.max_value a.sigfigs = .ok ⟨a.max_value, []⟩ := by
      rw [Hist.create, if_pos ⟨hmax, hsig⟩]
    have hnr : new_reader a.file.header a.lhs_column (some a.rhs_column) none =
        .ok ⟨pidx, none, none⟩ := by
      simp [new_reader, hp, hrc]
    simp only [Args.to_hist, hno, Args.single_file_to_hist, hcreate, hnr]
    exact singleLoop_no_rhs a.oob a.max_value ⟨pidx, none, none⟩ rfl rfl
      a.file.rows ⟨a.max_value, []⟩ hall

/-- C6 witness: a missing primary column errors; a missing secondary column
yields a successful empty histogram on a concrete file. -/
theorem C6_witness :
    (findColumn ["a", "b"] "zzz" = none ∧
     findColumn ["a", "b"] "a" = some 0 ∧ get ["1", "2"] 0 = .ok 1) ∧
    (∃ msg, new_reader ["a", "b"] "zzz" none none = .error (.userError msg)) ∧
    Args.to_hist ⟨⟨["a", "b"], [["1", "2"]]⟩, "a", "zzz", 100, 2, none, none,
      OOBRule.Drop⟩ = .ok ⟨100, []⟩ := by
  refine ⟨⟨by decide, by decide, rfl⟩, C6_column_lookup.1 ["a", "b"] "zzz" none none
    (by decide), ?_⟩
  refine C6_column_lookup.2 ⟨⟨["a", "b"], [["1", "2"]]⟩, "a", "zzz", 100, 2, none,
    none, OOBRule.Drop⟩ 0 rfl (by decide) (by decide) (by norm_num) (by norm_num) ?_
  intro row hrow
  simp only [List.mem_singleton] at hrow
  exact ⟨1, by rw [hrow]; rfl⟩

/-- C7 counterexample: supplying a join column without a secondary source
file is not an error: the run silently proceeds in single-stream mode and
emits output (here the difference 7 - 2 = 5 is recorded). -/
theorem C7_counterexample :
    Args.to_hist ⟨⟨["a", "b"], [["7", "2"]]⟩, "a", "b", 100, 2, none, some "a",
      OOBRule.Error⟩ = .ok ⟨100, [5]⟩ := by decide

/-- C7 (amended): supplying a secondary source file without a join column
is a configuration error that is fatal before any row is read (for every
file contents); supplying a join column without a secondary source file is
silently accepted: the run proceeds in single-stream mode, ignoring the
join column entirely. -/
theorem C7_config_check :
    (∀ (a : Args) (rhsFile : CsvFile), a.rhs_file = some rhsFile →
      a.join_column = none →
      a.to_hist = .error (.userError "join column not supplied")) ∧
    (∀ (a : Args) (j j' : Option String), a.rhs_file = none →
      Args.to_hist { a with join_column := j } =
        Args.to_hist { a with join_column := j' }) := by
  constructor
  · intro a rhsFile hr hj
    simp only [Args.to_hist, hr, hj]
  · intro a j j' hr
    simp only [Args.to_hist, hr, Args.single_file_to_hist]

/-- C7 witness: a concrete configuration with a secondary file and no join
column fails up front; a concrete single-file configuration gives the same
result whatever the join column is set to. -/
theorem C7_witness :
    ((Args.rhs_file ⟨⟨["a", "b"], [["7", "2"]]⟩, "a", "b", 100, 2,
        some ⟨["a"], []⟩, none, OOBRule.Error⟩ = some ⟨["a"], []⟩) ∧
     (Args.join_column ⟨⟨["a", "b"], [["7", "2"]]⟩, "a", "b", 100, 2,
        some ⟨["a"], []⟩, none, OOBRule.Error⟩ = none)) ∧
    Args.to_hist ⟨⟨["a", "b"], [["7", "2"]]⟩, "a", "b", 100, 2, some ⟨["a"], []⟩,
      none, OOBRule.Error⟩ = .error (.userError "join column not supplied") ∧
    Args.to_hist ⟨⟨["a", "b"], [["7", "2"]]⟩, "a", "b", 100, 2, none, some "a",
      OOBRule.Error⟩ =
      Args.to_hist ⟨⟨["a", "b"], [["7", "2"]]⟩, "a", "b", 100, 2, none, none,
        OOBRule.Error⟩ := by
  refine ⟨⟨rfl, rfl⟩, ?_, ?_⟩
  · exact C7_config_check.1 ⟨⟨["a", "b"], [["7", "2"]]⟩, "a", "b", 100, 2,
      some ⟨["a"], []⟩, none, OOBRule.Error⟩ ⟨["a"], []⟩ rfl rfl
  · exact C7_config_check.2 ⟨⟨["a", "b"], [["7", "2"]]⟩, "a", "b", 100, 2, none,
      none, OOBRule.Error⟩ (some "a") none rfl



/-! Facts about join keys and bulk buffering, toward the join-completeness
theorem. -/

theorem joinKeys_cons_some {m : Measurement} {ms : List Measurement} {k : String}
    (h : m.join = some k) : joinKeys (m :: ms) = k :: joinKeys ms := by
  simp [joinKeys, h]

theorem joinKeys_append (l r : List Measurement) :
    joinKeys (l ++ r) = joinKeys l ++ joinKeys r := by
  simp [joinKeys]

theorem eq_nil_of_joinKeys_nil (rs : List Measurement)
    (hall : ∀ m ∈ rs, m.join.isSome) (hnil : joinKeys rs = []) : rs = [] := by
  cases rs with
  | nil => rfl
  | cons r rest =>
    obtain ⟨k, hk⟩ := Option.isSome_iff_exists.mp (hall r (List.mem_cons_self r rest))
    rw [joinKeys_cons_some hk] at hnil
    exact absurd hnil (by simp)

theorem exists_first_key_split (key : String) :
    ∀ (rs : List Measurement), (∀ m ∈ rs, m.join.isSome) → key ∈ joinKeys rs →
    ∃ rs₁ m rs₂, rs = rs₁ ++ m :: rs₂ ∧ (m : Measurement).join = some key ∧
      ∀ r ∈ rs₁, (r : Measurement).join ≠ some key := by
  intro rs
  induction rs with
  | nil => intro _ hmem; simp [joinKeys] at hmem
  | cons r rest ih =>
    intro hall hmem
    obtain ⟨k, hk⟩ := Option.isSome_iff_exists.mp (hall r (List.mem_cons_self r rest))
    by_cases hkey : k = key
    · exact ⟨[], r, rest, rfl, hkey ▸ hk, by simp⟩
    · rw [joinKeys_cons_some hk] at hmem
      rcases List.mem_cons.mp hmem with h | h
      · exact absurd h.symm hkey
      · obtain ⟨rs₁, m, rs₂, heq, hmj, hfirst⟩ :=
          ih (fun x hx => hall x (List.mem_cons_of_mem r hx)) h
        refine ⟨r :: rs₁, m, rs₂, by simp [heq], hmj, ?_⟩
        intro x hx
        rcases List.mem_cons.mp hx with h1 | h1
        · rw [h1, hk]
          exact fun hc => hkey (Option.some.inj hc)
        · exact hfirst x h1

theorem takeLoop_found (key : String) :
    ∀ (rs₁ : List Measurement) (m : Measurement) (rs₂ : List Measurement) (buf : Buf),
    (∀ r ∈ rs₁, ∃ k, (r : Measurement).join = some k ∧ k ≠ key) →
    m.join = some key →
    takeLoop key ((rs₁ ++ m :: rs₂).map .ok) buf =
      .ok (some m, rs₂.map .ok, insertAll buf rs₁) := by
  intro rs₁
  induction rs₁ with
  | nil =>
    intro m rs₂ buf _ hmj
    simp only [List.nil_append, List.map_cons, takeLoop, hmj, insertAll]
    simp
  | cons r rest ih =>
    intro m rs₂ buf hall hmj
    obtain ⟨k, hk, hkey⟩ := hall r (List.mem_cons_self r rest)
    simp only [List.cons_append, List.map_cons, takeLoop, hk, insertAll]
    rw [if_neg hkey]
    exact ih m rs₂ (Buf.insert buf k r)
      (fun x hx => hall x (List.mem_cons_of_mem r hx)) hmj

theorem mem_del_subset {b : Buf} {k : String} {p : String × Measurement}
    (h : p ∈ Buf.del b k) : p ∈ b :=
  (Buf.del_sublist b k).subset h

theorem insertAll_inv : ∀ (rs : List Measurement) (buf : Buf),
    (∀ p ∈ buf, (p : String × Measurement).2.join = some p.1) →
    ∀ p ∈ insertAll buf rs, (p : String × Measurement).2.join = some p.1 := by
  intro rs
  induction rs with
  | nil => intro buf hb; exact hb
  | cons r rest ih =>
    intro buf hb
    cases hj : r.join with
    | none => rw [insertAll, hj]; exact ih buf hb
    | some k =>
      rw [insertAll, hj]
      refine ih (Buf.insert buf k r) ?_
      intro p hp
      rcases List.mem_cons.mp hp with h1 | h1
      · rw [h1]; exact hj
      · exact hb p (mem_del_subset h1)

theorem keys_insertAll : ∀ (rs : List Measurement) (buf : Buf),
    (∀ m ∈ rs, (m : Measurement).join.isSome) →
    (Buf.keys buf ++ joinKeys rs).Nodup →
    (Buf.keys (insertAll buf rs)).Perm (Buf.keys buf ++ joinKeys rs) := by
  intro rs
  induction rs with
  | nil =>
    intro buf _ _
    rw [insertAll]
    simp [joinKeys]
  | cons r rest ih =>
    intro buf hall hnd
    obtain ⟨k, hk⟩ := Option.isSome_iff_exists.mp (hall r (List.mem_cons_self r rest))
    rw [joinKeys_cons_some hk] at hnd
    have hknot : k ∉ Buf.keys buf := by
      intro hmem
      exact (List.nodup_append.mp hnd).2.2 hmem (List.mem_cons_self k (joinKeys rest))
    have hkeysins : Buf.keys (Buf.insert buf k r) = k :: Buf.keys buf := by
      rw [Buf.insert, Buf.keys_cons, Buf.del_of_not_mem buf k hknot]
    have hnd2 : (Buf.keys (Buf.insert buf k r) ++ joinKeys rest).Nodup := by
      rw [hkeysins]
      exact List.perm_middle.nodup hnd
    simp only [insertAll, hk, joinKeys_cons_some hk]
    have h1 := ih (Buf.insert buf k r) (fun x hx => hall x (List.mem_cons_of_mem r hx)) hnd2
    rw [hkeysins] at h1
    exact h1.trans List.perm_middle.symm

/-- Completeness of the join trace: when every row carries a key, the left
keys are pairwise distinct and the right keys (after what the buffer
already holds) are a permutation of them, every left row is matched with a
row of the same key, the run consumes the whole right stream, and the
pending buffer ends empty. -/
theorem joinRun_complete :
    ∀ (lefts rights : List Measurement) (buf : Buf),
    (∀ m ∈ lefts, (m : Measurement).join.isSome) →
    (∀ m ∈ rights, (m : Measurement).join.isSome) →
    (∀ p ∈ buf, (p : String × Measurement).2.join = some p.1) →
    (joinKeys lefts).Nodup →
    (Buf.keys buf ++ joinKeys rights).Perm (joinKeys lefts) →
    ∃ trace, joinRun lefts ⟨rights.map .ok, buf⟩ = .ok (trace, ⟨[], []⟩) ∧
      trace.map Prod.fst = lefts ∧
      ∀ p ∈ trace, ∃ m, (p : Measurement × Option Measurement).2 = some m ∧
        m.join = p.1.join := by
  intro lefts
  induction lefts with
  | nil =>
    intro rights buf _ hrk _ _ hperm
    have h0 : Buf.keys buf ++ joinKeys rights = [] := hperm.eq_nil
    obtain ⟨h1, h2⟩ := List.append_eq_nil.mp h0
    obtain rfl : buf = [] := by
      cases buf with
      | nil => rfl
      | cons p rest => simp [Buf.keys] at h1
    obtain rfl : rights = [] := eq_nil_of_joinKeys_nil rights hrk h2
    exact ⟨[], rfl, rfl, by simp⟩
  | cons l ls ih =>
    intro rights buf hlk hrk hbinv hnd hperm
    obtain ⟨k, hk⟩ := Option.isSome_iff_exists.mp (hlk l (List.mem_cons_self l ls))
    rw [joinKeys_cons_some hk] at hnd hperm
    have hndls := List.nodup_cons.mp hnd
    have hnddom : (Buf.keys buf ++ joinKeys rights).Nodup := hperm.symm.nodup hnd
    have hlk' : ∀ m ∈ ls, (m : Measurement).join.isSome :=
      fun x hx => hlk x (List.mem_cons_of_mem l hx)
    cases hbk : Buf.get buf k with
    | some r =>
      have hrj : r.join = some k := hbinv (k, r) (Buf.get_mem buf k r hbk)
      have hkin : k ∈ Buf.keys buf := Buf.mem_keys_of_get buf k r hbk
      have hkeysdel : Buf.keys (Buf.del buf k) = (Buf.keys buf).erase k :=
        Buf.keys_del_of_nodup buf k (List.nodup_append.mp hnddom).1
      have hperm2 : (Buf.keys (Buf.del buf k) ++ joinKeys rights).Perm (joinKeys ls) := by
        have h1 : (k :: (Buf.keys (Buf.del buf k) ++ joinKeys rights)).Perm
            (k :: joinKeys ls) := by
          rw [hkeysdel]
          exact (((List.perm_cons_erase hkin).symm.append_right
            (joinKeys rights)).trans hperm)
        exact h1.cons_inv
      obtain ⟨trace, hrun, hmap, hprop⟩ := ih rights (Buf.del buf k) hlk' hrk
        (fun p hp => hbinv p (mem_del_subset hp)) hndls.2 hperm2
      refine ⟨(l, some r) :: trace, ?_, ?_, ?_⟩
      · simp only [joinRun, hk, JoinRHS.take, hbk, hrun]
      · simp [hmap]
      · intro p hp
        rcases List.mem_cons.mp hp with h1 | h1
        · exact ⟨r, by rw [h1], by rw [h1, hrj, hk]⟩
        · exact hprop p h1
    | none =>
      have hknotbuf : k ∉ Buf.keys buf := (Buf.get_eq_none_iff buf k).mp hbk
      have hkin : k ∈ joinKeys rights := by
        have hmem : k ∈ Buf.keys buf ++ joinKeys rights :=
          hperm.symm.subset (List.mem_cons_self k (joinKeys ls))
        rcases List.mem_append.mp hmem with h | h
        · exact absurd h hknotbuf
        · exact h
      obtain ⟨rs₁, m, rs₂, rfl, hmj, hfirst⟩ := exists_first_key_split k rights hrk hkin
      have hrk₁ : ∀ r ∈ rs₁, (r : Measurement).join.isSome :=
        fun x hx => hrk x (List.mem_append.mpr (Or.inl hx))
      have hrk₂ : ∀ r ∈ rs₂, (r : Measurement).join.isSome :=
        fun x hx => hrk x (List.mem_append.mpr (Or.inr (List.mem_cons_of_mem m hx)))
      have hfound := takeLoop_found k rs₁ m rs₂ buf
        (fun r hr => by
          obtain ⟨k', hk'⟩ := Option.isSome_iff_exists.mp (hrk₁ r hr)
          exact ⟨k', hk', fun hc => hfirst r hr (hc ▸ hk')⟩)
        hmj
      have htake : JoinRHS.take ⟨(rs₁ ++ m :: rs₂).map .ok, buf⟩ k =
          .ok (some m, ⟨rs₂.map .ok, insertAll buf rs₁⟩) := by
        simp only [JoinRHS.take, hbk, hfound]
      have hkeysrights : joinKeys (rs₁ ++ m :: rs₂) =
          joinKeys rs₁ ++ k :: joinKeys rs₂ := by
        rw [joinKeys_append, joinKeys_cons_some hmj]
      rw [hkeysrights] at hnddom hperm
      have hnd₁ : (Buf.keys buf ++ joinKeys rs₁).Nodup := by
        have hsub : (Buf.keys buf ++ joinKeys rs₁).Sublist
            (Buf.keys buf ++ (joinKeys rs₁ ++ k :: joinKeys rs₂)) :=
          (List.sublist_append_left (joinKeys rs₁) (k :: joinKeys rs₂)).append_left _
        exact hsub.nodup hnddom
      have hpermins : (Buf.keys (insertAll buf rs₁)).Perm
          (Buf.keys buf ++ joinKeys rs₁) := keys_insertAll rs₁ buf hrk₁ hnd₁
      have hperm2 : (Buf.keys (insertAll buf rs₁) ++ joinKeys rs₂).Perm (joinKeys ls) := by
        have q1 : (Buf.keys (insertAll buf rs₁) ++ joinKeys rs₂).Perm
            ((Buf.keys buf ++ joinKeys rs₁) ++ joinKeys rs₂) :=
          hpermins.append_right _
        have q2 : (k :: ((Buf.keys buf ++ joinKeys rs₁) ++ joinKeys rs₂)).Perm
            (Buf.keys buf ++ (joinKeys rs₁ ++ k :: joinKeys rs₂)) := by
          have h := (@List.perm_middle String k (Buf.keys buf ++ joinKeys rs₁)
            (joinKeys rs₂)).symm
          rw [List.append_assoc (Buf.keys buf) (joinKeys rs₁) (k :: joinKeys rs₂)] at h
          exact h
        have h1 : (k :: (Buf.keys (insertAll buf rs₁) ++ joinKeys rs₂)).Perm
            (k :: joinKeys ls) := ((q1.cons k).trans q2).trans hperm
        exact h1.cons_inv
      obtain ⟨trace, hrun, hmap, hprop⟩ := ih rs₂ (insertAll buf rs₁) hlk' hrk₂
        (insertAll_inv rs₁ buf hbinv) hndls.2 hperm2
      refine ⟨(l, some m) :: trace, ?_, ?_, ?_⟩
      · simp only [joinRun, hk, htake, hrun]
      · simp [hmap]
      · intro p hp
        rcases List.mem_cons.mp hp with h1 | h1
        · exact ⟨m, by rw [h1], by rw [h1, hmj, hk]⟩
        · exact hprop p h1



/-- C8 counterexample: left rows `[key A]`, right rows `[key B, key A]`.
The single left row's key has exactly one matching right row at or after
the right-stream position current when it is processed (the start), and
every left row is matched, yet at run end the Pending Buffer still holds
the orphaned B row: it is not empty. -/
theorem C8_counterexample :
    ((joinKeys [⟨60, none, some "B"⟩, ⟨40, none, some "A"⟩]).count "A" = 1) ∧
    joinRun [⟨50, none, some "A"⟩]
      ⟨[.ok ⟨60, none, some "B"⟩, .ok ⟨40, none, some "A"⟩], []⟩ =
      .ok ([(⟨50, none, some "A"⟩, some ⟨40, none, some "A"⟩)],
        ⟨[], [("B", ⟨60, none, some "B"⟩)]⟩) ∧
    ([("B", (⟨60, none, some "B"⟩ : Measurement))] : Buf) ≠ [] := by
  exact ⟨by decide, by decide, by decide⟩

/-- C8 (amended): in dual-stream mode, for streams in which every row
carries a join key, the left keys are pairwise distinct, and the right
keys are a permutation of the left keys (so every left key has exactly one
matching right row and, additionally to the claim, no right row is
orphaned), every left row is matched exactly once — by a right row bearing
its own key — and the Pending Buffer and the right stream are both empty
when the run ends. -/
theorem C8_join_completeness (lefts rights : List Measurement)
    (hlk : ∀ m ∈ lefts, (m : Measurement).join.isSome)
    (hrk : ∀ m ∈ rights, (m : Measurement).join.isSome)
    (hnd : (joinKeys lefts).Nodup)
    (hperm : (joinKeys rights).Perm (joinKeys lefts)) :
    ∃ trace, joinRun lefts ⟨rights.map .ok, []⟩ = .ok (trace, ⟨[], []⟩) ∧
      trace.map Prod.fst = lefts ∧
      ∀ p ∈ trace, ∃ m, (p : Measurement × Option Measurement).2 = some m ∧
        m.join = p.1.join :=
  joinRun_complete lefts rights []
    hlk hrk (fun p hp => absurd hp (List.not_mem_nil p)) hnd hperm

/-- C8 witness: the spec's own dual-stream example: left keys A then B,
right keys B then A (out of order); both left rows are matched by the rows
bearing their keys and the buffer ends empty. -/
theorem C8_witness :
    ((∀ m ∈ [Measurement.mk 50 none (some "A"), Measurement.mk 70 none (some "B")],
        (m : Measurement).join.isSome) ∧
     (∀ m ∈ [Measurement.mk 60 none (some "B"), Measurement.mk 40 none (some "A")],
        (m : Measurement).join.isSome) ∧
     (joinKeys [Measurement.mk 50 none (some "A"),
        Measurement.mk 70 none (some "B")]).Nodup ∧
     (joinKeys [Measurement.mk 60 none (some "B"),
        Measurement.mk 40 none (some "A")]).Perm
       (joinKeys [Measurement.mk 50 none (some "A"),
        Measurement.mk 70 none (some "B")])) ∧
    (∃ trace, joinRun [Measurement.mk 50 none (some "A"),
        Measurement.mk 70 none (some "B")]
        ⟨[.ok ⟨60, none, some "B"⟩, .ok ⟨40, none, some "A"⟩], []⟩ =
        .ok (trace, ⟨[], []⟩) ∧
      trace.map Prod.fst = [Measurement.mk 50 none (some "A"),
        Measurement.mk 70 none (some "B")] ∧
      ∀ p ∈ trace, ∃ m, (p : Measurement × Option Measurement).2 = some m ∧
        m.join = p.1.join) := by
  refine ⟨⟨by decide, by decide, by decide, by decide⟩, ?_⟩
  exact C8_join_completeness
    [Measurement.mk 50 none (some "A"), Measurement.mk 70 none (some "B")]
    [Measurement.mk 60 none (some "B"), Measurement.mk 40 none (some "A")]
    (by decide) (by decide) (by decide) (by decide)


end FastHdr
